import Mathlib

/-!
GenericBitmap: a shallow embedding of `src/generic_bitmap.h` (class `GenericBitmap`) and the
properties of its single-bit `get` / `set` operations.

Conventions of the embedding:

* `uint8_t` is `Byte = Fin 256`; a store into a `uint8_t` truncates with `Byte.trunc`.
* `uint64_t` / `size_t` values are natural numbers, reduced modulo `2 ^ 64` wherever the
  C++ arithmetic can wrap (`numBits + 7`, `numThreads - 1`).
* a heap region is a `List Byte` whose length is the size of the allocation; reading or
  writing past the end of a region, or past the end of one of the member arrays, is
  undefined behaviour in C++ and yields `none` here.
* `calloc` and `new` are taken to succeed.
* the mutexes carry no sequential state: only the length of the `locks` array is kept.
-/

namespace GenericBitmapModel

/-- The type `uint8_t`. -/
abbrev Byte := Fin 256

/-- Conversion of an integer value to `uint8_t` (keeps the low eight bits). -/
def Byte.trunc (x : Nat) : Byte := ⟨x % 256, Nat.mod_lt x (by decide)⟩

/-- Number of values of `uint64_t` / `size_t`. -/
def U64 : Nat := 2 ^ 64

/-- Complement `~mask` of a `uint8_t` operand, after integer promotion and conversion to the
64-bit unsigned type of the other operand of `&`. -/
def compl64 (mask : Byte) : Nat := U64 - 1 - mask.val

/-- The data members of `class GenericBitmap`. `locks` is the length of the mutex array. -/
structure GenericBitmap where
  numThreads : Nat
  numBits : Nat
  memorySizeByte : Nat
  myBitmap : List Byte
  calcTable : List (List (List Byte))
  masks8 : List Byte
  locks : Nat
deriving DecidableEq, Repr

/-- The loop `while (numThreads < num_cores) numThreads *= 2;` of `init`, with `fuel`
bounding the number of iterations. -/
def growThreads : Nat → Nat → Nat → Nat
  | 0, numThreads, _ => numThreads
  | fuel + 1, numThreads, num_cores =>
    if numThreads < num_cores then growThreads fuel (numThreads * 2 % U64) num_cores
    else numThreads

/-- The eight assignments `masks8[0] = 0x80; ... masks8[7] = 0x01;` of `init`. -/
def initMasks8 : List Byte := [0x80, 0x40, 0x20, 0x10, 0x08, 0x04, 0x02, 0x01]

/-- One iteration of the inner loop of `init`: the pair
`calcTable[prev][offset][0] = prev & (~mask)`, `calcTable[prev][offset][1] = prev | mask`. -/
def initCell (masks8 : List Byte) (prev offset : Nat) : List Byte :=
  let mask : Byte := masks8.getD offset 0
  [Byte.trunc (prev &&& compl64 mask), Byte.trunc (prev ||| mask.val)]

/-- The two nested loops of `init` filling `calcTable[256][8][2]`. -/
def initCalcTable (masks8 : List Byte) : List (List (List Byte)) :=
  (List.range 256).map fun prev => (List.range 8).map fun offset => initCell masks8 prev offset

namespace GenericBitmap

/-- `GenericBitmap::init`; `num_cores` is the value of
`std::thread::hardware_concurrency()`. -/
def init (s : GenericBitmap) (num_cores : Nat) : GenericBitmap :=
  let masks8 := initMasks8
  -- "numThreads should be 2^n."
  let _numThreads := if s.numThreads = 0 then growThreads 64 1 num_cores else s.numThreads
  -- "Until then, just use global latch."
  let numThreads := 1
  { s with
    masks8 := masks8
    numThreads := numThreads
    locks := numThreads
    calcTable := initCalcTable masks8 }

/-- The constructor `GenericBitmap(uint64_t num_bits, size_t num_threads = 0)`:
"Default constructor: initialize to 0". -/
def create (num_bits : Nat) (num_threads : Nat) (num_cores : Nat) : GenericBitmap :=
  let memorySizeByte := (num_bits + 7) % U64 / 8
  init
    { numThreads := num_threads
      numBits := num_bits
      memorySizeByte := memorySizeByte
      myBitmap := List.replicate memorySizeByte 0
      calcTable := []
      masks8 := []
      locks := 0 }
    num_cores

/-- The constructor `GenericBitmap(void* memory_ptr, size_t memory_ptr_size, size_t num_bits,
size_t num_threads = 0)`: "Copy from given memory blob". `memory_ptr` is the region the
pointer refers to; `memcpy` reads `memory_ptr_size` bytes of it. -/
def createFromCopy (memory_ptr : List Byte) (memory_ptr_size : Nat) (num_bits : Nat)
    (num_threads : Nat) (num_cores : Nat) : Option GenericBitmap :=
  if memory_ptr_size ≤ memory_ptr.length then
    some (init
      { numThreads := num_threads
        numBits := num_bits
        memorySizeByte := memory_ptr_size
        myBitmap := memory_ptr.take memory_ptr_size
        calcTable := []
        masks8 := []
        locks := 0 }
      num_cores)
  else none

/-- `GenericBitmap::size`. -/
def size (s : GenericBitmap) : Nat := s.numBits

/-- `GenericBitmap::getMemorySize`. -/
def getMemorySize (s : GenericBitmap) : Nat := s.memorySizeByte

/-- `GenericBitmap::getPtr`: the region the returned pointer refers to. -/
def getPtr (s : GenericBitmap) : List Byte := s.myBitmap

/-- `GenericBitmap::parse`: the triple `(lock_idx_out, offset_out, byte_idx_out)`. -/
def parse (s : GenericBitmap) (idx : Nat) : Nat × Nat × Nat :=
  (idx &&& ((s.numThreads + U64 - 1) % U64), idx &&& 0x7, idx >>> 3)

/-- `GenericBitmap::getInternal`. -/
def getInternal (s : GenericBitmap) (byte_idx offset : Nat) : Option Bool :=
  match s.myBitmap[byte_idx]?, s.masks8[offset]? with
  | some val, some mask => some (decide (val.val &&& mask.val ≠ 0))
  | _, _ => none

/-- `GenericBitmap::setInternal`; `val` is the `uint8_t` argument. Returns the `bool`
result and the state after the store. -/
def setInternal (s : GenericBitmap) (offset byte_idx : Nat) (val : Byte) :
    Option (Bool × GenericBitmap) :=
  match s.masks8[offset]?, s.myBitmap[byte_idx]? with
  | some mask, some prev =>
    match (s.calcTable[prev.val]?).bind fun row => (row[offset]?).bind fun cell => cell[val.val]? with
    | some next =>
      some (decide (prev.val &&& mask.val ≠ 0),
            { s with myBitmap := s.myBitmap.set byte_idx next })
    | none => none
  | _, _ => none

/-- `GenericBitmap::get`. -/
def get (s : GenericBitmap) (idx : Nat) : Option Bool :=
  match s.parse idx with
  | (lock_idx, offset, byte_idx) =>
    if lock_idx < s.locks then s.getInternal byte_idx offset else none

/-- The conversion `bool -> uint8_t` at the call of `setInternal`. -/
def boolToByte (val : Bool) : Byte := if val then 1 else 0

/-- `GenericBitmap::set`. -/
def set (s : GenericBitmap) (idx : Nat) (val : Bool) : Option (Bool × GenericBitmap) :=
  match s.parse idx with
  | (lock_idx, offset, byte_idx) =>
    if lock_idx < s.locks then s.setInternal offset byte_idx (boolToByte val) else none

end GenericBitmap

open GenericBitmap

/-- The bitmap states: the results of the two constructors of `src/generic_bitmap.h` and
of every completed `set` on such a result (`get` does not change the state). The
arguments of the constructors are `uint64_t` / `size_t` values. -/
inductive Reachable : GenericBitmap → Prop
  | create (num_bits num_threads num_cores : Nat) (hbits : num_bits < U64) :
      Reachable (GenericBitmap.create num_bits num_threads num_cores)
  | createFromCopy (memory_ptr : List Byte) (memory_ptr_size num_bits num_threads num_cores : Nat)
      (s : GenericBitmap) (hsize : memory_ptr_size < U64) (hbits : num_bits < U64)
      (h : GenericBitmap.createFromCopy memory_ptr memory_ptr_size num_bits num_threads num_cores
        = some s) :
      Reachable s
  | set (s : GenericBitmap) (idx : Nat) (val : Bool) (r : Bool) (t : GenericBitmap)
      (hs : Reachable s) (h : s.set idx val = some (r, t)) :
      Reachable t

/-- The bit of byte `b` under the mask `0x80 >> offset`. -/
def bitAt (b : Byte) (offset : Nat) : Bool := decide (b.val &&& (0x80 >>> offset) ≠ 0)

/-- The entry `calcTable[prev][offset][val]` as `init` computes it. -/
def newByte (prev : Byte) (offset : Nat) (val : Bool) : Byte :=
  (initCell initMasks8 prev.val offset).getD (boolToByte val).val 0

/-- What the constructors establish and `set` keeps: the tables are the ones `init` fills,
there is one lock, and the buffer is an allocation of `memorySizeByte` bytes. -/
structure Inited (s : GenericBitmap) : Prop where
  masks : s.masks8 = initMasks8
  table : s.calcTable = initCalcTable initMasks8
  threads : s.numThreads = 1
  nlocks : s.locks = 1
  alloc : s.myBitmap.length = s.memorySizeByte

/-- Modelled from the spec: `moveFrom` (the spec's `createFromOwnedBlob`) is called by
`src/tests/bitmap_test.cc` but is not defined in `src/src/generic_bitmap.h`. Following the
spec, the bitmap "takes exclusive ownership of an already-allocated blob without copying":
the blob itself becomes the buffer (the buffer held before is released), together with the
given byte size and bit count; the tables and the lock stay as `init` left them. -/
def GenericBitmap.moveFrom (s : GenericBitmap) (memory_ptr : List Byte) (memory_ptr_size : Nat)
    (num_bits : Nat) : GenericBitmap :=
  { s with
    myBitmap := memory_ptr
    memorySizeByte := memory_ptr_size
    numBits := num_bits }

/-- The bitmap the copy constructor builds from the two-byte blob `FF FF` with 16 bits. -/
def loadedFF : GenericBitmap :=
  init
    { numThreads := 0
      numBits := 16
      memorySizeByte := 2
      myBitmap := [0xFF, 0xFF]
      calcTable := []
      masks8 := []
      locks := 0 }
    4

/-- A sequence of writes `(idx, v)` applied in order with `set`, the returned booleans being
dropped; `none` as soon as one call is undefined. -/
def setAll (s : GenericBitmap) : List (Nat × Bool) → Option GenericBitmap
  | [] => some s
  | w :: ws => (s.set w.1 w.2).bind fun r => setAll r.2 ws

/-- The value of the last write of the sequence that targeted index `i`, if there is one. -/
def lastWrite : List (Nat × Bool) → Nat → Option Bool
  | [], _ => none
  | w :: ws, i =>
    match lastWrite ws i with
    | some b => some b
    | none => if w.1 = i then some w.2 else none

/-- The branching definition of forcing one bit of a byte, in the words of the spec:
"if v then byte OR mask else byte AND NOT mask", with the mask `0x80 >> offset` and `NOT`
the complement within eight bits. -/
def naiveSetBit (byte offset : Nat) (v : Bool) : Nat :=
  if v then byte ||| (0x80 >>> offset) else byte &&& ((0x80 >>> offset) ^^^ 0xFF)

/-! ## Bytes and tables -/

theorem initMasks8_getElem? (o : Nat) (ho : o < 8) :
    initMasks8[o]? = some (Byte.trunc (0x80 >>> o)) := by
  interval_cases o <;> rfl

theorem trunc_mask_val (o : Nat) (ho : o < 8) : (Byte.trunc (0x80 >>> o)).val = 0x80 >>> o := by
  interval_cases o <;> rfl

theorem initCalcTable_lookup (prev : Byte) (o : Nat) (ho : o < 8) (val : Bool) :
    ((initCalcTable initMasks8)[prev.val]?).bind
      (fun row => (row[o]?).bind fun cell => cell[(boolToByte val).val]?)
      = some (newByte prev o val) := by
  unfold initCalcTable
  rw [List.getElem?_map, List.getElem?_range prev.isLt]
  simp only [Option.map_some', Option.some_bind]
  rw [List.getElem?_map, List.getElem?_range ho]
  simp only [Option.map_some', Option.some_bind]
  cases val <;> simp [newByte, boolToByte, initCell]

theorem bitAt_newByte_nat : ∀ p < 256, ∀ o < 8, ∀ o2 < 8, ∀ v : Bool,
    bitAt (newByte (Byte.trunc p) o v) o2 = if o2 = o then v else bitAt (Byte.trunc p) o2 := by
  decide!

theorem trunc_val (b : Byte) : Byte.trunc b.val = b := by
  apply Fin.ext
  simp [Byte.trunc, Nat.mod_eq_of_lt b.isLt]

theorem bitAt_newByte (prev : Byte) (o o2 : Nat) (ho : o < 8) (ho2 : o2 < 8) (v : Bool) :
    bitAt (newByte prev o v) o2 = if o2 = o then v else bitAt prev o2 := by
  have h := bitAt_newByte_nat prev.val prev.isLt o ho o2 ho2 v
  rwa [trunc_val] at h

/-! ## The operations on an initialised state -/

theorem parse_eq (s : GenericBitmap) (h : s.numThreads = 1) (idx : Nat) :
    s.parse idx = (0, idx % 8, idx / 8) := by
  have h7 : idx &&& 7 = idx % 8 := Nat.and_pow_two_sub_one_eq_mod idx 3
  have h3 : idx >>> 3 = idx / 8 := Nat.shiftRight_eq_div_pow idx 3
  simp [parse, h, U64, h7, h3]

theorem get_eq (s : GenericBitmap) (h : Inited s) (idx : Nat) :
    s.get idx = (s.myBitmap[idx / 8]?).map fun b => bitAt b (idx % 8) := by
  have ho : idx % 8 < 8 := Nat.mod_lt _ (by decide)
  simp only [GenericBitmap.get, parse_eq s h.threads, h.nlocks, getInternal, h.masks,
    initMasks8_getElem? _ ho]
  cases s.myBitmap[idx / 8]? <;> simp [bitAt, trunc_mask_val _ ho]

theorem set_eq (s : GenericBitmap) (h : Inited s) (idx : Nat) (val : Bool) :
    s.set idx val = (s.myBitmap[idx / 8]?).map fun prev =>
      (bitAt prev (idx % 8),
       { s with myBitmap := s.myBitmap.set (idx / 8) (newByte prev (idx % 8) val) }) := by
  have ho : idx % 8 < 8 := Nat.mod_lt _ (by decide)
  unfold GenericBitmap.set
  rw [parse_eq s h.threads]
  simp only [h.nlocks, Nat.zero_lt_one, if_true]
  unfold setInternal
  rw [h.masks, initMasks8_getElem? _ ho, h.table]
  cases hb : s.myBitmap[idx / 8]? with
  | none => rfl
  | some prev =>
    simp only [Option.map_some']
    rw [initCalcTable_lookup prev _ ho val]
    simp only [bitAt, trunc_mask_val _ ho, h.nlocks]

/-! ## Every bitmap state is initialised -/

theorem inited_init (s : GenericBitmap) (num_cores : Nat)
    (h : s.myBitmap.length = s.memorySizeByte) : Inited (s.init num_cores) :=
  ⟨rfl, rfl, rfl, rfl, h⟩

theorem inited_create (num_bits num_threads num_cores : Nat) :
    Inited (create num_bits num_threads num_cores) :=
  inited_init _ num_cores (List.length_replicate _ _)

theorem inited_createFromCopy (memory_ptr : List Byte)
    (memory_ptr_size num_bits num_threads num_cores : Nat) (s : GenericBitmap)
    (h : createFromCopy memory_ptr memory_ptr_size num_bits num_threads num_cores = some s) :
    Inited s := by
  unfold createFromCopy at h
  split at h
  · rename_i hle
    cases h
    exact inited_init _ num_cores (by simp [List.length_take, hle])
  · cases h

theorem set_some (s : GenericBitmap) (h : Inited s) (idx : Nat) (val : Bool) (r : Bool)
    (t : GenericBitmap) (hset : s.set idx val = some (r, t)) :
    ∃ prev, s.myBitmap[idx / 8]? = some prev ∧ r = bitAt prev (idx % 8) ∧
      t = { s with myBitmap := s.myBitmap.set (idx / 8) (newByte prev (idx % 8) val) } := by
  rw [set_eq s h] at hset
  cases hb : s.myBitmap[idx / 8]? with
  | none => rw [hb] at hset; cases hset
  | some prev =>
    rw [hb] at hset
    simp only [Option.map_some', Option.some.injEq, Prod.mk.injEq] at hset
    exact ⟨prev, rfl, hset.1.symm, hset.2.symm⟩

theorem inited_set (s : GenericBitmap) (h : Inited s) (idx : Nat) (val : Bool) (r : Bool)
    (t : GenericBitmap) (hset : s.set idx val = some (r, t)) : Inited t := by
  obtain ⟨prev, _, _, ht⟩ := set_some s h idx val r t hset
  subst ht
  exact ⟨h.masks, h.table, h.threads, h.nlocks, by simpa using h.alloc⟩

theorem Reachable.inited {s : GenericBitmap} (hs : Reachable s) : Inited s := by
  induction hs with
  | create num_bits num_threads num_cores _ => exact inited_create _ _ _
  | createFromCopy memory_ptr memory_ptr_size num_bits num_threads num_cores s _ _ h =>
    exact inited_createFromCopy _ _ _ _ _ _ h
  | set s idx val r t _ h ih => exact inited_set s ih idx val r t h

/-- On an initialised state `set` is defined exactly when the buffer holds byte `idx / 8`. -/
theorem set_defined (s : GenericBitmap) (h : Inited s) (idx : Nat) (val : Bool)
    (hb : idx / 8 < s.myBitmap.length) :
    ∃ prev, s.myBitmap[idx / 8]? = some prev ∧
      s.set idx val = some (bitAt prev (idx % 8),
        { s with myBitmap := s.myBitmap.set (idx / 8) (newByte prev (idx % 8) val) }) := by
  refine ⟨s.myBitmap[idx / 8], List.getElem?_eq_getElem hb, ?_⟩
  rw [set_eq s h, List.getElem?_eq_getElem hb]
  rfl

theorem div_mod_ne {i j : Nat} (hne : j ≠ i) (hd : j / 8 = i / 8) : j % 8 ≠ i % 8 := by
  omega

/-- Reading after a completed write: the written bit holds the written value, every other
bit reads as before. -/
theorem get_after_set (s : GenericBitmap) (h : Inited s) (idx : Nat) (val : Bool) (r : Bool)
    (t : GenericBitmap) (hset : s.set idx val = some (r, t)) (j : Nat) :
    t.get j = if j = idx then some val else s.get j := by
  have ht := inited_set s h idx val r t hset
  obtain ⟨prev, hprev, _, rfl⟩ := set_some s h idx val r t hset
  have hlt : idx / 8 < s.myBitmap.length := by
    rcases List.getElem?_eq_some.mp hprev with ⟨hl, _⟩
    exact hl
  have hi : idx % 8 < 8 := Nat.mod_lt _ (by decide)
  have hj : j % 8 < 8 := Nat.mod_lt _ (by decide)
  rw [get_eq _ ht, get_eq s h]
  simp only []
  by_cases hd : j / 8 = idx / 8
  · rw [hd, List.getElem?_set_self hlt, hprev]
    simp only [Option.map_some']
    rw [bitAt_newByte prev _ _ hi hj]
    by_cases hji : j = idx
    · subst hji; simp
    · simp [hji, div_mod_ne hji hd]
  · have hji : j ≠ idx := fun e => hd (by rw [e])
    rw [List.getElem?_set_ne (Ne.symm hd)]
    simp [hji]

theorem newByte_idem_nat : ∀ p < 256, ∀ o < 8, ∀ v : Bool,
    newByte (newByte (Byte.trunc p) o v) o v = newByte (Byte.trunc p) o v := by
  decide!

theorem newByte_idem (prev : Byte) (o : Nat) (ho : o < 8) (v : Bool) :
    newByte (newByte prev o v) o v = newByte prev o v := by
  have h := newByte_idem_nat prev.val prev.isLt o ho v
  rwa [trunc_val] at h

/-! ## Previous value, set-then-get, frame, idempotence -/

/-- C2 (previous-value contract): on a bitmap state whose buffer holds byte `idx / 8`, for
`idx < size()`, the call `set(idx, v)` is defined and the boolean it returns is the value
`get(idx)` returns on the state before the call, whatever `v` is. -/
theorem set_returns_previous (s : GenericBitmap) (hs : Reachable s) (idx : Nat) (v : Bool)
    (_hidx : idx < s.size) (hbuf : idx / 8 < s.myBitmap.length) :
    ∃ p t, s.set idx v = some (p, t) ∧ s.get idx = some p := by
  obtain ⟨prev, hprev, hset⟩ := set_defined s hs.inited idx v hbuf
  refine ⟨_, _, hset, ?_⟩
  rw [get_eq s hs.inited, hprev]
  rfl

/-- Witness of C2: bit 3 of a fresh 64-bit bitmap. -/
theorem set_returns_previous_witness :
    ∃ p t, (create 64 0 4).set 3 true = some (p, t) ∧ (create 64 0 4).get 3 = some p :=
  set_returns_previous (create 64 0 4) (Reachable.create 64 0 4 (by decide)) 3 true
    (by decide) (by decide)

/-- C3, as stated, fails: the copy constructor accepts a blob of 0 bytes for 8 bits, and on
that state `set(0, true)` addresses byte 0 of an empty buffer, so that no `get(0)` follows
that returns `true`. -/
theorem set_then_get_short_buffer :
    (createFromCopy [] 0 8 0 4).map size = some 8 ∧
    (createFromCopy [] 0 8 0 4).bind (fun s => (s.set 0 true).map Prod.fst) = none ∧
    (createFromCopy [] 0 8 0 4).bind
      (fun s => (s.set 0 true).bind fun r => r.2.get 0) ≠ some true := by
  decide

/-- C3 (amended): on a bitmap state (fresh, loaded from a blob, or reached by earlier
writes) whose buffer holds byte `idx / 8`, for `idx < size()` and every `v`, `set(idx, v)`
is defined and `get(idx)` on the state it leaves returns `v`. -/
theorem get_after_set_same (s : GenericBitmap) (hs : Reachable s) (idx : Nat) (v : Bool)
    (_hidx : idx < s.size) (hbuf : idx / 8 < s.myBitmap.length) :
    ∃ p t, s.set idx v = some (p, t) ∧ t.get idx = some v := by
  obtain ⟨prev, _, hset⟩ := set_defined s hs.inited idx v hbuf
  refine ⟨_, _, hset, ?_⟩
  rw [get_after_set s hs.inited idx v _ _ hset idx]
  simp

/-- Witness of C3 (amended): clearing bit 10 of the bitmap loaded from the blob `FF FF`. -/
theorem get_after_set_same_witness :
    ∃ p t, loadedFF.set 10 false = some (p, t) ∧ t.get 10 = some false :=
  get_after_set_same loadedFF
    (Reachable.createFromCopy [0xFF, 0xFF] 2 16 0 4 loadedFF (by decide) (by decide) rfl)
    10 false (by decide) (by decide)

/-- C4, as stated, fails: a bitmap copied from a 1-byte blob with 16 bits reads bit 0 as
`false`, but `set(8, true)` addresses byte 1, which the buffer does not hold, so that no
state follows on which `get(0)` could return the same value. -/
theorem frame_short_buffer :
    (createFromCopy [0] 1 16 0 4).map size = some 16 ∧
    (createFromCopy [0] 1 16 0 4).bind (fun s => s.get 0) = some false ∧
    (createFromCopy [0] 1 16 0 4).bind
      (fun s => (s.set 8 true).bind fun r => r.2.get 0) = none := by
  decide

/-- C4 (amended): on a bitmap state whose buffer holds byte `idx / 8`, for `idx < size()`,
every `v` and every `j < size()` with `j ≠ idx` (also in the same byte), `set(idx, v)` is
defined, `get(j)` after it equals `get(j)` before it, every buffer byte other than byte
`idx / 8` is unchanged, the buffer keeps its length, and `size()` and `getMemorySize()`
are unchanged. -/
theorem set_frame (s : GenericBitmap) (hs : Reachable s) (idx : Nat) (v : Bool) (j : Nat)
    (_hidx : idx < s.size) (hbuf : idx / 8 < s.myBitmap.length) (_hj : j < s.size)
    (hne : j ≠ idx) :
    ∃ p t, s.set idx v = some (p, t) ∧ t.get j = s.get j ∧
      (∀ k, k ≠ idx / 8 → t.myBitmap[k]? = s.myBitmap[k]?) ∧
      t.myBitmap.length = s.myBitmap.length ∧
      t.size = s.size ∧ t.getMemorySize = s.getMemorySize := by
  obtain ⟨prev, _, hset⟩ := set_defined s hs.inited idx v hbuf
  refine ⟨_, _, hset, ?_, ?_, ?_, rfl, rfl⟩
  · rw [get_after_set s hs.inited idx v _ _ hset j]
    simp [hne]
  · intro k hk
    exact List.getElem?_set_ne (Ne.symm hk)
  · simp

/-- Witness of C4 (amended): writing bit 3 of a fresh 64-bit bitmap and reading bit 4, which
lies in the same byte. -/
theorem set_frame_witness :
    ∃ p t, (create 64 0 4).set 3 true = some (p, t) ∧ t.get 4 = (create 64 0 4).get 4 ∧
      (∀ k, k ≠ 3 / 8 → t.myBitmap[k]? = (create 64 0 4).myBitmap[k]?) ∧
      t.myBitmap.length = (create 64 0 4).myBitmap.length ∧
      t.size = (create 64 0 4).size ∧ t.getMemorySize = (create 64 0 4).getMemorySize :=
  set_frame (create 64 0 4) (Reachable.create 64 0 4 (by decide)) 3 true 4
    (by decide) (by decide) (by decide) (by decide)

/-- C5, as stated, fails: on the bitmap copied from a blob of 0 bytes with 8 bits the first
`set(0, true)` already addresses a byte the buffer does not hold, so that there is no
second call that returns `true`. -/
theorem set_twice_short_buffer :
    (createFromCopy [] 0 8 0 4).map size = some 8 ∧
    (createFromCopy [] 0 8 0 4).bind (fun s => (s.set 0 true).map Prod.snd) = none ∧
    (createFromCopy [] 0 8 0 4).bind
      (fun s => (s.set 0 true).bind fun r => (r.2.set 0 true).map Prod.fst) ≠ some true := by
  decide

/-- C5 (amended, idempotence): on a bitmap state whose buffer holds byte `idx / 8`, for
`idx < size()` and every `v`, `set(idx, v)` is defined and a second `set(idx, v)` on the
state `t` it leaves returns `v` and leaves exactly `t` again: the same buffer, hence the
same `get` result at every index. -/
theorem set_idempotent (s : GenericBitmap) (hs : Reachable s) (idx : Nat) (v : Bool)
    (_hidx : idx < s.size) (hbuf : idx / 8 < s.myBitmap.length) :
    ∃ p t, s.set idx v = some (p, t) ∧ t.set idx v = some (v, t) := by
  have hi : idx % 8 < 8 := Nat.mod_lt _ (by decide)
  obtain ⟨prev, _, hset⟩ := set_defined s hs.inited idx v hbuf
  refine ⟨_, _, hset, ?_⟩
  have ht := inited_set s hs.inited idx v _ _ hset
  rw [set_eq _ ht]
  simp only [List.getElem?_set_self hbuf, Option.map_some', List.set_set,
    newByte_idem prev _ hi v, bitAt_newByte prev _ _ hi hi v, if_true]

/-- Witness of C5 (amended): bit 63 of a fresh 64-bit bitmap, written `true` twice. -/
theorem set_idempotent_witness :
    ∃ p t, (create 64 0 4).set 63 true = some (p, t) ∧ t.set 63 true = some (true, t) :=
  set_idempotent (create 64 0 4) (Reachable.create 64 0 4 (by decide)) 63 true
    (by decide) (by decide)

/-! ## Blob round trips -/

/-- C6 (blob round-trip by copy): for every bitmap state `B`, the copy constructor applied
to `(B.getPtr(), B.getMemorySize(), B.size())` is defined and yields a bitmap `C` with
`C.size() = B.size()`, `C.getMemorySize() = B.getMemorySize()`, a buffer byte-for-byte equal
to the buffer of `B`, and `C.get(i) = B.get(i)` for every `i < B.size()`. -/
theorem copy_roundtrip (B : GenericBitmap) (hB : Reachable B) (num_threads num_cores : Nat) :
    ∃ C, createFromCopy B.getPtr B.getMemorySize B.size num_threads num_cores = some C ∧
      C.size = B.size ∧ C.getMemorySize = B.getMemorySize ∧ C.getPtr = B.getPtr ∧
      ∀ i, i < B.size → C.get i = B.get i := by
  have hlen : B.myBitmap.length = B.memorySizeByte := hB.inited.alloc
  have hle : B.getMemorySize ≤ B.getPtr.length := by
    simp [getMemorySize, getPtr, hlen]
  have htake : List.take B.memorySizeByte B.myBitmap = B.myBitmap := by
    rw [← hlen]
    exact List.take_length B.myBitmap
  refine ⟨_, if_pos hle, rfl, rfl, htake, ?_⟩
  intro i _
  have hC : Inited (init
      { numThreads := num_threads, numBits := B.size, memorySizeByte := B.getMemorySize,
        myBitmap := List.take B.getMemorySize B.getPtr, calcTable := [], masks8 := [],
        locks := 0 } num_cores) :=
    inited_init _ num_cores (by simp [getMemorySize, getPtr, hlen])
  rw [get_eq _ hC, get_eq B hB.inited]
  simp only [init, getMemorySize, getPtr, htake]

/-- Witness of C6: a fresh 64-bit bitmap is a bitmap state. -/
theorem copy_roundtrip_witness :
    ∃ C, createFromCopy (create 64 0 4).getPtr (create 64 0 4).getMemorySize
        (create 64 0 4).size 0 4 = some C ∧
      C.size = (create 64 0 4).size ∧ C.getMemorySize = (create 64 0 4).getMemorySize ∧
      C.getPtr = (create 64 0 4).getPtr ∧
      ∀ i, i < (create 64 0 4).size → C.get i = (create 64 0 4).get i :=
  copy_roundtrip (create 64 0 4) (Reachable.create 64 0 4 (by decide)) 0 4

/-- C7 (blob round-trip by ownership transfer): for every bitmap state `B` and every
existing bitmap state `N`, after `N.moveFrom(blob, len, B.size())`, where `blob` is a byte
copy of the buffer of `B` and `len = B.getMemorySize()`, the buffer of `N` is the blob
itself, `N.size() = B.size()`, `N.getMemorySize() = len`, and `N.get(i) = B.get(i)` for every
`i < B.size()`. -/
theorem moveFrom_roundtrip (B N : GenericBitmap) (hB : Reachable B) (hN : Reachable N)
    (blob : List Byte) (len : Nat) (hblob : blob = B.getPtr) (_hlen : len = B.getMemorySize) :
    (N.moveFrom blob len B.size).getPtr = blob ∧
      (N.moveFrom blob len B.size).size = B.size ∧
      (N.moveFrom blob len B.size).getMemorySize = len ∧
      ∀ i, i < B.size → (N.moveFrom blob len B.size).get i = B.get i := by
  refine ⟨rfl, rfl, rfl, ?_⟩
  intro i _
  have hN2 := hN.inited
  have hB2 := hB.inited
  simp only [GenericBitmap.get, GenericBitmap.parse, GenericBitmap.getInternal,
    GenericBitmap.moveFrom, hN2.threads, hN2.nlocks, hN2.masks, hB2.threads, hB2.nlocks,
    hB2.masks, hblob, getPtr]

/-- Witness of C7: the test `dump_move_test` on a small scale, moving the buffer of a fresh
64-bit bitmap into a bitmap made by `create(0)`. -/
theorem moveFrom_roundtrip_witness :
    ((create 0 0 4).moveFrom (create 64 0 4).getPtr 8 (create 64 0 4).size).getPtr
        = (create 64 0 4).getPtr ∧
      ((create 0 0 4).moveFrom (create 64 0 4).getPtr 8 (create 64 0 4).size).size
        = (create 64 0 4).size ∧
      ((create 0 0 4).moveFrom (create 64 0 4).getPtr 8 (create 64 0 4).size).getMemorySize
        = 8 ∧
      ∀ i, i < (create 64 0 4).size →
        ((create 0 0 4).moveFrom (create 64 0 4).getPtr 8 (create 64 0 4).size).get i
          = (create 64 0 4).get i :=
  moveFrom_roundtrip (create 64 0 4) (create 0 0 4) (Reachable.create 64 0 4 (by decide))
    (Reachable.create 0 0 4 (by decide)) (create 64 0 4).getPtr 8 rfl (by decide)

/-! ## Construction -/

theorem ceil_div_eight (n : Nat) : ⌈(n : ℚ) / 8⌉₊ = (n + 7) / 8 := by
  apply le_antisymm
  · rw [Nat.ceil_le, div_le_iff₀ (by norm_num)]
    have h : n ≤ (n + 7) / 8 * 8 := by omega
    exact_mod_cast h
  · have h := Nat.le_ceil ((n : ℚ) / 8)
    rw [div_le_iff₀ (by norm_num)] at h
    have h2 : n ≤ ⌈(n : ℚ) / 8⌉₊ * 8 := by exact_mod_cast h
    omega

/-- The size computed by `create` while `numBits + 7` does not wrap: the exact ceiling of
`bitCount / 8`. -/
theorem create_memorySize (num_bits num_threads num_cores : Nat) (h : num_bits + 7 < U64) :
    (create num_bits num_threads num_cores).size = num_bits ∧
      (create num_bits num_threads num_cores).getMemorySize = ⌈(num_bits : ℚ) / 8⌉₊ ∧
      (create num_bits num_threads num_cores).getPtr.length = ⌈(num_bits : ℚ) / 8⌉₊ := by
  rw [ceil_div_eight]
  simp [create, init, size, getMemorySize, getPtr, Nat.mod_eq_of_lt h]

/-- The boundary sizes 0, 1, 7, 8, 9 and 10,000,000 of `create`. -/
theorem create_memorySize_boundary (num_threads num_cores : Nat) :
    (create 0 num_threads num_cores).getMemorySize = 0 ∧
    (create 1 num_threads num_cores).getMemorySize = 1 ∧
    (create 7 num_threads num_cores).getMemorySize = 1 ∧
    (create 8 num_threads num_cores).getMemorySize = 1 ∧
    (create 9 num_threads num_cores).getMemorySize = 2 ∧
    (create 10000000 num_threads num_cores).getMemorySize = 1250000 := by
  refine ⟨?_, ?_, ?_, ?_, ?_, ?_⟩ <;> rfl

/-- C8 fails at the 64-bit value `2 ^ 64 - 1`: `numBits + 7` wraps to 6, so that `create`
records `size() = 2 ^ 64 - 1` with `getMemorySize() = 0` and an empty buffer, while the
exact ceiling of `(2 ^ 64 - 1) / 8` is `2 ^ 61`. -/
theorem create_memorySize_wraps (num_threads num_cores : Nat) :
    (create (2 ^ 64 - 1) num_threads num_cores).size = 2 ^ 64 - 1 ∧
      (create (2 ^ 64 - 1) num_threads num_cores).getMemorySize = 0 ∧
      (create (2 ^ 64 - 1) num_threads num_cores).getPtr = [] ∧
      ⌈((2 ^ 64 - 1 : Nat) : ℚ) / 8⌉₊ = 2 ^ 61 := by
  refine ⟨rfl, rfl, rfl, ?_⟩
  rw [ceil_div_eight]
  norm_num

theorem bitAt_zero (o : Nat) : bitAt 0 o = false := by
  simp [bitAt]

/-- A fresh bitmap is all zero: every byte of the buffer of `create(n)` is 0, whatever the
concurrency hint, and while `n + 7` does not wrap `get(i)` returns `false` for `i < n`. -/
theorem create_all_zero (num_bits num_threads num_cores : Nat) :
    (∀ b ∈ (create num_bits num_threads num_cores).getPtr, b = 0) ∧
      (num_bits + 7 < U64 → ∀ i, i < num_bits →
        (create num_bits num_threads num_cores).get i = some false) := by
  constructor
  · intro b hb
    exact List.eq_of_mem_replicate hb
  · intro h i hi
    rw [get_eq _ (inited_create _ _ _)]
    have hlt : i / 8 < (num_bits + 7) % U64 / 8 := by
      rw [Nat.mod_eq_of_lt h]
      omega
    simp [create, init, List.getElem?_replicate, hlt, bitAt_zero]

/-- C9 fails at the 64-bit value `2 ^ 64 - 1`: the buffer of `create(2 ^ 64 - 1)` is empty
(`numBits + 7` wraps), so that `get(0)`, with `0 < size()`, addresses a byte the buffer does
not hold instead of returning `false`. -/
theorem fresh_get_wraps :
    0 < (create (2 ^ 64 - 1) 0 4).size ∧ (create (2 ^ 64 - 1) 0 4).get 0 = none := by
  decide

/-! ## Memory layout -/

theorem newByte_zero_true (o : Nat) (ho : o < 8) :
    newByte 0 o true = Byte.trunc (0x80 >>> o) := by
  interval_cases o <;> rfl

/-- C10 (raw memory layout, MSB first): for every bitmap state and every `idx < size()`,
`parse` yields lock 0, offset `idx & 0x7 = idx mod 8` and byte index `idx >> 3 = idx / 8`;
`get(idx)` is the test `buffer[idx / 8] AND (0x80 >> (idx mod 8)) ≠ 0` (defined exactly when
the buffer holds that byte); and `set(idx, true)` on a buffer whose byte `idx / 8` is 0
returns `false` and makes that byte exactly `0x80 >> (idx mod 8)`; offset 0 is the mask
`0x80` and offset 7 the mask `0x01`. -/
theorem msb_first_layout (s : GenericBitmap) (hs : Reachable s) (idx : Nat)
    (_hidx : idx < s.size) :
    s.parse idx = (0, idx % 8, idx / 8) ∧ idx >>> 3 = idx / 8 ∧ idx &&& 0x7 = idx % 8 ∧
      s.get idx = (s.myBitmap[idx / 8]?).map
        (fun b => decide (b.val &&& (0x80 >>> (idx % 8)) ≠ 0)) ∧
      (s.myBitmap[idx / 8]? = some 0 →
        ∃ t next, s.set idx true = some (false, t) ∧ t.myBitmap[idx / 8]? = some next ∧
          next.val = 0x80 >>> (idx % 8)) ∧
      s.masks8[0]? = some 0x80 ∧ s.masks8[7]? = some 0x01 := by
  have hi : idx % 8 < 8 := Nat.mod_lt _ (by decide)
  have h := hs.inited
  refine ⟨parse_eq s h.threads idx, Nat.shiftRight_eq_div_pow idx 3,
    Nat.and_pow_two_sub_one_eq_mod idx 3, get_eq s h idx, ?_, ?_, ?_⟩
  · intro h0
    have hlt : idx / 8 < s.myBitmap.length := by
      rcases List.getElem?_eq_some.mp h0 with ⟨hl, _⟩
      exact hl
    refine ⟨{ s with myBitmap := s.myBitmap.set (idx / 8) (newByte 0 (idx % 8) true) },
      Byte.trunc (0x80 >>> (idx % 8)), ?_, ?_, trunc_mask_val _ hi⟩
    · rw [set_eq s h, h0]
      simp only [Option.map_some', bitAt_zero]
    · simp only [List.getElem?_set_self hlt, newByte_zero_true _ hi]
  · rw [h.masks]; rfl
  · rw [h.masks]; rfl

/-- Witness of C10: index 17 of a fresh 64-bit bitmap (byte 2, offset 1, mask `0x40`). -/
theorem msb_first_layout_witness :
    (create 64 0 4).parse 17 = (0, 17 % 8, 17 / 8) ∧ 17 >>> 3 = 17 / 8 ∧ 17 &&& 0x7 = 17 % 8 ∧
      (create 64 0 4).get 17 = ((create 64 0 4).myBitmap[17 / 8]?).map
        (fun b => decide (b.val &&& (0x80 >>> (17 % 8)) ≠ 0)) ∧
      ((create 64 0 4).myBitmap[17 / 8]? = some 0 →
        ∃ t next, (create 64 0 4).set 17 true = some (false, t) ∧
          t.myBitmap[17 / 8]? = some next ∧ next.val = 0x80 >>> (17 % 8)) ∧
      (create 64 0 4).masks8[0]? = some 0x80 ∧ (create 64 0 4).masks8[7]? = some 0x01 :=
  msb_first_layout (create 64 0 4) (Reachable.create 64 0 4 (by decide)) 17 (by decide)

/-! ## Round trip of a sequence of writes -/

/-- A sequence of writes whose bytes all lie in the buffer is defined, keeps the buffer length
and the bit count, and leaves at every index the value of the last write to that index, or
what the index read before when no write targeted it. -/
theorem setAll_get (ws : List (Nat × Bool)) :
    ∀ s : GenericBitmap, Inited s → (∀ w ∈ ws, w.1 / 8 < s.myBitmap.length) →
      ∃ t, setAll s ws = some t ∧ Inited t ∧ t.myBitmap.length = s.myBitmap.length ∧
        t.numBits = s.numBits ∧
        ∀ i, t.get i = match lastWrite ws i with
          | some b => some b
          | none => s.get i := by
  induction ws with
  | nil =>
    intro s hs _
    exact ⟨s, rfl, hs, rfl, rfl, fun i => rfl⟩
  | cons w ws ih =>
    intro s hs hall
    obtain ⟨prev, _, hset⟩ := set_defined s hs w.1 w.2 (hall w (List.mem_cons_self _ _))
    have hs1 := inited_set s hs w.1 w.2 _ _ hset
    have hget := get_after_set s hs w.1 w.2 _ _ hset
    obtain ⟨t, ht, hti, htl, htn, htg⟩ := ih _ hs1 (by
      intro x hx
      simpa using hall x (List.mem_cons_of_mem _ hx))
    refine ⟨t, ?_, hti, ?_, ?_, ?_⟩
    · simp only [setAll, hset, Option.some_bind]
      exact ht
    · simpa using htl
    · simpa using htn
    · intro i
      rw [htg i, hget i]
      simp only [lastWrite]
      cases lastWrite ws i with
      | some b => rfl
      | none =>
        by_cases hi : i = w.1
        · simp [hi]
        · simp [hi, Ne.symm hi]

/-- Round trip on a fresh bitmap whose size computation does not wrap: after any sequence of
writes with indices below `n`, applied in order to `create(n)`, `get(i)` for `i < n` returns
the value of the last write to `i`, and `false` when no write targeted `i`. -/
theorem roundtrip_create (num_bits num_threads num_cores : Nat) (hn : num_bits + 7 < U64)
    (ws : List (Nat × Bool)) (hws : ∀ w ∈ ws, w.1 < num_bits) :
    ∃ t, setAll (create num_bits num_threads num_cores) ws = some t ∧
      ∀ i, i < num_bits → t.get i = some ((lastWrite ws i).getD false) := by
  have hlen : (create num_bits num_threads num_cores).myBitmap.length = (num_bits + 7) / 8 := by
    simp [create, init, Nat.mod_eq_of_lt hn]
  obtain ⟨t, ht, _, _, _, htg⟩ := setAll_get ws _ (inited_create num_bits num_threads num_cores)
    (by
      intro w hw
      have := hws w hw
      rw [hlen]
      omega)
  refine ⟨t, ht, ?_⟩
  intro i hi
  rw [htg i]
  cases lastWrite ws i with
  | some b => rfl
  | none => exact (create_all_zero num_bits num_threads num_cores).2 hn i hi

theorem lastWrite_map_true (idxs : List Nat) (i : Nat) :
    lastWrite (idxs.map fun idx => (idx, true)) i = if i ∈ idxs then some true else none := by
  induction idxs with
  | nil => rfl
  | cons a l ih =>
    simp only [List.map_cons, lastWrite, List.mem_cons, ih]
    by_cases hm : i ∈ l
    · simp [hm]
    · by_cases ha : a = i
      · simp [ha, hm]
      · simp [hm, ha, Ne.symm ha]

theorem lastWrite_true (idxs : List Nat) (i : Nat) :
    (lastWrite (idxs.map fun idx => (idx, true)) i).getD false = decide (i ∈ idxs) := by
  rw [lastWrite_map_true]
  by_cases hm : i ∈ idxs <;> simp [hm]

/-- The test `basic_verification`: after setting every index of a list to `true` on a fresh
bitmap, `get(i)` is `true` exactly for the indices in the list. -/
theorem basic_verification (num_bits num_threads num_cores : Nat) (hn : num_bits + 7 < U64)
    (idxs : List Nat) (hidxs : ∀ idx ∈ idxs, idx < num_bits) :
    ∃ t, setAll (create num_bits num_threads num_cores) (idxs.map fun idx => (idx, true))
        = some t ∧
      ∀ i, i < num_bits → t.get i = some (decide (i ∈ idxs)) := by
  obtain ⟨t, ht, htg⟩ := roundtrip_create num_bits num_threads num_cores hn
    (idxs.map fun idx => (idx, true)) (by
      intro w hw
      obtain ⟨idx, hidx, rfl⟩ := List.mem_map.mp hw
      exact hidxs idx hidx)
  refine ⟨t, ht, ?_⟩
  intro i hi
  rw [htg i hi, lastWrite_true]

/-- The example scenario of the spec: on a 64-bit bitmap, setting indices 3, 17 and 63 gives
the buffer `10 00 40 00 00 00 00 01`, and `get` is `true` exactly at 3, 17 and 63. -/
theorem example_scenario :
    (setAll (create 64 0 4) [(3, true), (17, true), (63, true)]).map getPtr
        = some [0x10, 0, 0x40, 0, 0, 0, 0, 0x01] ∧
      (setAll (create 64 0 4) [(3, true), (17, true), (63, true)]).map
        (fun t => (List.range 64).filter fun i => t.get i == some true) = some [3, 17, 63] := by
  decide!

/-- C1 fails at the 64-bit value `n = 2 ^ 64 - 1`: the buffer of `create(n)` is empty
(`numBits + 7` wraps), so that the single write `set(0, true)`, with `0 < n`, addresses a
byte the buffer does not hold, and no state follows on which `get(0)` returns `true`. -/
theorem roundtrip_wraps :
    0 < (create (2 ^ 64 - 1) 0 4).size ∧
      (create (2 ^ 64 - 1) 0 4).getPtr = [] ∧
      setAll (create (2 ^ 64 - 1) 0 4) [(0, true)] = none := by
  decide

/-! ## A byte is its eight bits -/

theorem byte_eq_bits_nat : ∀ p < 256,
    p = (if bitAt (Byte.trunc p) 0 then 128 else 0) + (if bitAt (Byte.trunc p) 1 then 64 else 0)
      + (if bitAt (Byte.trunc p) 2 then 32 else 0) + (if bitAt (Byte.trunc p) 3 then 16 else 0)
      + (if bitAt (Byte.trunc p) 4 then 8 else 0) + (if bitAt (Byte.trunc p) 5 then 4 else 0)
      + (if bitAt (Byte.trunc p) 6 then 2 else 0) + (if bitAt (Byte.trunc p) 7 then 1 else 0) := by
  decide!

theorem byte_ext (x y : Byte) (h : ∀ o, o < 8 → bitAt x o = bitAt y o) : x = y := by
  apply Fin.ext
  have hx := byte_eq_bits_nat x.val x.isLt
  have hy := byte_eq_bits_nat y.val y.isLt
  rw [trunc_val] at hx hy
  rw [hx, hy, h 0 (by decide), h 1 (by decide), h 2 (by decide), h 3 (by decide),
    h 4 (by decide), h 5 (by decide), h 6 (by decide), h 7 (by decide)]

theorem newByte_comm (prev : Byte) (o1 o2 : Nat) (h1 : o1 < 8) (h2 : o2 < 8) (hne : o1 ≠ o2)
    (a b : Bool) :
    newByte (newByte prev o1 a) o2 b = newByte (newByte prev o2 b) o1 a := by
  apply byte_ext
  intro o ho
  rw [bitAt_newByte _ _ _ h2 ho, bitAt_newByte _ _ _ h1 ho, bitAt_newByte _ _ _ h1 ho,
    bitAt_newByte _ _ _ h2 ho]
  by_cases e1 : o = o1
  · have e2 : o ≠ o2 := fun e => hne (e1.symm.trans e)
    simp [e1, e2, hne]
  · simp [e1]

theorem newByte_undo (prev : Byte) (o : Nat) (ho : o < 8) (v : Bool) :
    newByte (newByte prev o v) o (bitAt prev o) = prev := by
  apply byte_ext
  intro o2 ho2
  rw [bitAt_newByte _ _ _ ho ho2, bitAt_newByte _ _ _ ho ho2]
  by_cases e : o2 = o
  · simp [e]
  · simp [e]

theorem newByte_same (prev : Byte) (o : Nat) (ho : o < 8) :
    newByte prev o (bitAt prev o) = prev := by
  apply byte_ext
  intro o2 ho2
  rw [bitAt_newByte _ _ _ ho ho2]
  by_cases e : o2 = o
  · simp [e]
  · simp [e]

theorem list_set_self {α : Type} (l : List α) (i : Nat) (a : α) (h : l[i]? = some a) :
    l.set i a = l := by
  apply List.ext_getElem?
  intro k
  by_cases e : i = k
  · subst e
    rw [List.getElem?_set_self (List.getElem?_eq_some.mp h).1, h]
  · rw [List.getElem?_set_ne e]

theorem getElem?_lt {α : Type} {l : List α} {i : Nat} {a : α} (h : l[i]? = some a) :
    i < l.length :=
  (List.getElem?_eq_some.mp h).1

/-! ## The copy constructor and the buffer length -/

/-- C11 (copy constructor takes the blob as given): for every blob, every `blobSizeBytes`
not larger than the blob and every `bitCount`, whether or not `blobSizeBytes` is
`ceil(bitCount / 8)`, the copy constructor is defined (no size check, no failure) and yields
a bitmap with `getMemorySize() = blobSizeBytes`, `size() = bitCount` and a buffer of
`blobSizeBytes` bytes equal to the first `blobSizeBytes` bytes of the blob. -/
theorem createFromCopy_as_given (memory_ptr : List Byte)
    (memory_ptr_size num_bits num_threads num_cores : Nat)
    (hle : memory_ptr_size ≤ memory_ptr.length) :
    ∃ C, createFromCopy memory_ptr memory_ptr_size num_bits num_threads num_cores = some C ∧
      C.getMemorySize = memory_ptr_size ∧ C.size = num_bits ∧
      C.getPtr = memory_ptr.take memory_ptr_size ∧ C.getPtr.length = memory_ptr_size := by
  refine ⟨_, if_pos hle, rfl, rfl, rfl, ?_⟩
  simp [getPtr, init, List.length_take, hle]

/-- Witness of C11: two bytes of a three-byte blob taken for 64 bits, a size that is not
`ceil(64 / 8)`. -/
theorem createFromCopy_as_given_witness :
    ∃ C, createFromCopy [0xA5, 0x0F, 0xFF] 2 64 0 4 = some C ∧
      C.getMemorySize = 2 ∧ C.size = 64 ∧
      C.getPtr = List.take 2 [0xA5, 0x0F, 0xFF] ∧ C.getPtr.length = 2 :=
  createFromCopy_as_given [0xA5, 0x0F, 0xFF] 2 64 0 4 (by decide)

theorem setAll_some (ws : List (Nat × Bool)) :
    ∀ s t : GenericBitmap, Inited s → setAll s ws = some t →
      Inited t ∧ t.numBits = s.numBits ∧ t.memorySizeByte = s.memorySizeByte := by
  induction ws with
  | nil =>
    intro s t hs h
    cases h
    exact ⟨hs, rfl, rfl⟩
  | cons w ws ih =>
    intro s t hs h
    simp only [setAll] at h
    cases hset : s.set w.1 w.2 with
    | none => rw [hset] at h; cases h
    | some r =>
      rw [hset] at h
      have hr : s.set w.1 w.2 = some (r.1, r.2) := hset
      obtain ⟨prev, _, _, hr2⟩ := set_some s hs _ _ _ _ hr
      obtain ⟨h1, h2, h3⟩ := ih r.2 t (inited_set s hs _ _ _ _ hr) h
      rw [hr2] at h2 h3
      exact ⟨h1, h2, h3⟩

/-- C12, as stated, fails: the copy constructor called with a blob of 0 bytes and 8 bits
yields a bitmap with `getMemorySize() = 0` and `size() = 8`, while `ceil(8 / 8) = 1`. -/
theorem buffer_length_mismatch :
    (createFromCopy [] 0 8 0 4).map getMemorySize = some 0 ∧
    (createFromCopy [] 0 8 0 4).map size = some 8 ∧
    ⌈((8 : Nat) : ℚ) / 8⌉₊ = 1 := by
  refine ⟨by decide, by decide, ?_⟩
  rw [ceil_div_eight]

/-- C12 (amended, buffer-length invariant): for every bitmap produced by `create(n)` with
`n + 7` not wrapping, or by the copy constructor with `blobSizeBytes = ceil(bitCount / 8)`,
after any completed sequence of `set` calls (`get` leaves the state as it is)
`getMemorySize() = ceil(size() / 8)`, and this is the length of the buffer; every sequence
of `set` calls with indices below `size()` is defined. -/
theorem buffer_length_invariant (s0 : GenericBitmap)
    (h0 : (∃ n t c : Nat, n + 7 < U64 ∧ s0 = create n t c) ∨
      (∃ (blob : List Byte) (sz bits t c : Nat),
        sz = ⌈((bits : Nat) : ℚ) / 8⌉₊ ∧ createFromCopy blob sz bits t c = some s0)) :
    (∀ ws t, setAll s0 ws = some t →
      t.size = s0.size ∧ t.getMemorySize = ⌈(t.size : ℚ) / 8⌉₊ ∧
        t.getPtr.length = t.getMemorySize) ∧
    (∀ ws, (∀ w ∈ ws, w.1 < s0.size) → ∃ t, setAll s0 ws = some t) := by
  have key : Inited s0 ∧ s0.memorySizeByte = (s0.numBits + 7) / 8 := by
    rcases h0 with ⟨n, t, c, hn, rfl⟩ | ⟨blob, sz, bits, t, c, hsz, hc⟩
    · refine ⟨inited_create n t c, ?_⟩
      simp [create, init, Nat.mod_eq_of_lt hn]
    · refine ⟨inited_createFromCopy _ _ _ _ _ _ hc, ?_⟩
      rw [ceil_div_eight] at hsz
      unfold createFromCopy at hc
      split at hc
      · cases hc
        simp [init, hsz]
      · cases hc
  obtain ⟨hin, hmem⟩ := key
  constructor
  · intro ws t ht
    obtain ⟨h1, h2, h3⟩ := setAll_some ws s0 t hin ht
    refine ⟨h2, ?_, h1.alloc⟩
    rw [ceil_div_eight]
    simp only [getMemorySize, size, h2, h3, hmem]
  · intro ws hws
    obtain ⟨t, ht, _⟩ := setAll_get ws s0 hin (by
      intro w hw
      have := hws w hw
      rw [hin.alloc, hmem]
      simp only [size] at this
      omega)
    exact ⟨t, ht⟩

/-- Witness of C12 (amended): a fresh 9-bit bitmap, which has a buffer of 2 bytes. -/
theorem buffer_length_invariant_witness :
    (∀ ws t, setAll (create 9 0 4) ws = some t →
      t.size = (create 9 0 4).size ∧ t.getMemorySize = ⌈(t.size : ℚ) / 8⌉₊ ∧
        t.getPtr.length = t.getMemorySize) ∧
    (∀ ws, (∀ w ∈ ws, w.1 < (create 9 0 4).size) → ∃ t, setAll (create 9 0 4) ws = some t) :=
  buffer_length_invariant (create 9 0 4) (Or.inl ⟨9, 0, 4, by decide, rfl⟩)

/-! ## In-bounds access -/

theorem initCalcTable_dims (masks8 : List Byte) :
    (initCalcTable masks8).length = 256 ∧
      ∀ row ∈ initCalcTable masks8, row.length = 8 ∧ ∀ cell ∈ row, cell.length = 2 := by
  constructor
  · simp [initCalcTable]
  · intro row hrow
    simp only [initCalcTable, List.mem_map] at hrow
    obtain ⟨prev, _, rfl⟩ := hrow
    constructor
    · simp
    · intro cell hcell
      simp only [List.mem_map] at hcell
      obtain ⟨offset, _, rfl⟩ := hcell
      rfl

/-- C13 (in-bounds access under the index precondition): for every bitmap state whose buffer
has `ceil(size() / 8)` bytes and every `idx < size()`, `get(idx)` and `set(idx, v)` index the
buffer at `idx >> 3 < getMemorySize()`, the mask table (8 entries) at `idx & 7 < 8`, the
lookup table (256 x 8 x 2 entries) at `[prev < 256][offset < 8][v < 2]` and the lock array
(1 entry) at index 0; every one of these lookups succeeds, and so do `get(idx)` and
`set(idx, v)`. -/
theorem in_bounds_access (s : GenericBitmap) (hs : Reachable s)
    (hlen : s.getPtr.length = ⌈(s.size : ℚ) / 8⌉₊) (idx : Nat) (hidx : idx < s.size)
    (v : Bool) :
    ∃ prev mask next,
      s.parse idx = (0, idx &&& 0x7, idx >>> 3) ∧
      0 < s.locks ∧ s.locks = 1 ∧
      idx >>> 3 < s.getMemorySize ∧ s.getPtr.length = s.getMemorySize ∧
      s.myBitmap[idx >>> 3]? = some prev ∧
      idx &&& 0x7 < 8 ∧ s.masks8.length = 8 ∧ s.masks8[idx &&& 0x7]? = some mask ∧
      prev.val < 256 ∧ (boolToByte v).val < 2 ∧
      (s.calcTable.length = 256 ∧
        ∀ row ∈ s.calcTable, row.length = 8 ∧ ∀ cell ∈ row, cell.length = 2) ∧
      ((s.calcTable[prev.val]?).bind fun row =>
        (row[idx &&& 0x7]?).bind fun cell => cell[(boolToByte v).val]?) = some next ∧
      (s.get idx).isSome = true ∧ (s.set idx v).isSome = true := by
  have h := hs.inited
  have h7 : idx &&& 7 = idx % 8 := Nat.and_pow_two_sub_one_eq_mod idx 3
  have h3 : idx >>> 3 = idx / 8 := Nat.shiftRight_eq_div_pow idx 3
  have ho : idx % 8 < 8 := Nat.mod_lt _ (by decide)
  rw [ceil_div_eight] at hlen
  simp only [getPtr, size] at hlen hidx
  have hb : idx / 8 < s.myBitmap.length := by
    rw [hlen]
    omega
  obtain ⟨prev, hprev, hset⟩ := set_defined s h idx v hb
  refine ⟨prev, Byte.trunc (0x80 >>> (idx % 8)), newByte prev (idx % 8) v, ?_, ?_, h.nlocks,
    ?_, h.alloc, ?_, ?_, ?_, ?_, prev.isLt, ?_, ?_, ?_, ?_, ?_⟩
  · rw [parse_eq s h.threads, h7, h3]
  · rw [h.nlocks]; exact Nat.zero_lt_one
  · rw [h3, getMemorySize, ← h.alloc]; exact hb
  · rw [h3]; exact hprev
  · rw [h7]; exact ho
  · rw [h.masks]; rfl
  · rw [h7, h.masks]; exact initMasks8_getElem? _ ho
  · cases v <;> decide
  · rw [h.table]; exact initCalcTable_dims _
  · rw [h7, h.table]; exact initCalcTable_lookup prev _ ho v
  · rw [get_eq s h, hprev]; rfl
  · rw [hset]; rfl

/-- Witness of C13: the last index of a fresh 9-bit bitmap. -/
theorem in_bounds_access_witness :
    ∃ prev mask next,
      (create 9 0 4).parse 8 = (0, 8 &&& 0x7, 8 >>> 3) ∧
      0 < (create 9 0 4).locks ∧ (create 9 0 4).locks = 1 ∧
      8 >>> 3 < (create 9 0 4).getMemorySize ∧
      (create 9 0 4).getPtr.length = (create 9 0 4).getMemorySize ∧
      (create 9 0 4).myBitmap[8 >>> 3]? = some prev ∧
      8 &&& 0x7 < 8 ∧ (create 9 0 4).masks8.length = 8 ∧
      (create 9 0 4).masks8[8 &&& 0x7]? = some mask ∧
      prev.val < 256 ∧ (boolToByte true).val < 2 ∧
      ((create 9 0 4).calcTable.length = 256 ∧
        ∀ row ∈ (create 9 0 4).calcTable, row.length = 8 ∧ ∀ cell ∈ row, cell.length = 2) ∧
      (((create 9 0 4).calcTable[prev.val]?).bind fun row =>
        (row[8 &&& 0x7]?).bind fun cell => cell[(boolToByte true).val]?) = some next ∧
      ((create 9 0 4).get 8).isSome = true ∧ ((create 9 0 4).set 8 true).isSome = true :=
  in_bounds_access (create 9 0 4) (Reachable.create 9 0 4 (by decide))
    ((create_memorySize 9 0 4 (by decide)).2.2) 8 (by decide) true

/-! ## The lock -/

theorem growThreads_exits (num_cores : Nat) (hc : num_cores ≤ 2 ^ 63) :
    ∀ fuel k numThreads, numThreads = 2 ^ k → k ≤ 63 → 63 ≤ fuel + k →
      num_cores ≤ growThreads fuel numThreads num_cores := by
  intro fuel
  induction fuel with
  | zero =>
    intro k numThreads hnt hk hf
    have hk63 : k = 63 := by omega
    subst hk63
    simp only [growThreads]
    omega
  | succ fuel ih =>
    intro k numThreads hnt hk hf
    simp only [growThreads]
    split
    · rename_i hlt
      have hk2 : k < 63 := by
        by_contra hcon
        have hk63 : k = 63 := by omega
        subst hk63
        omega
      have hpow : (2 : Nat) ^ (k + 1) < 2 ^ 64 := Nat.pow_lt_pow_right (by decide) (by omega)
      refine ih (k + 1) _ ?_ (by omega) (by omega)
      rw [hnt, ← Nat.pow_succ]
      exact Nat.mod_eq_of_lt hpow
    · omega

theorem growThreads_stable (num_cores : Nat) :
    ∀ fuel numThreads, num_cores ≤ growThreads fuel numThreads num_cores →
      ∀ more, fuel ≤ more →
        growThreads more numThreads num_cores = growThreads fuel numThreads num_cores := by
  intro fuel
  induction fuel with
  | zero =>
    intro numThreads h more _
    simp only [growThreads] at h
    cases more with
    | zero => rfl
    | succ m => simp only [growThreads, if_neg (Nat.not_lt.mpr h)]
  | succ fuel ih =>
    intro numThreads h more hm
    cases more with
    | zero => omega
    | succ m =>
      simp only [growThreads] at h ⊢
      split
      · rename_i hlt
        rw [if_pos hlt] at h
        exact ih _ h m (by omega)
      · rfl

/-- C15 (single global lock): whatever concurrency hint is passed to either constructor, the
loop of `init` that first sizes the partition count ends (within 64 rounds, for a core count
that fits `unsigned int`), the partition count after construction is 1 with an array of one
lock, and for every `idx` the lock index `idx & (numThreads - 1)` that `parse` computes for
`get` and `set` is 0; the same holds on every state reached by later `set` calls. -/
theorem single_global_lock (hint num_cores : Nat) (hcores : num_cores < 2 ^ 32) :
    (num_cores ≤ growThreads 64 1 num_cores ∧
      ∀ fuel, 64 ≤ fuel → growThreads fuel 1 num_cores = growThreads 64 1 num_cores) ∧
    (∀ num_bits,
      (create num_bits hint num_cores).numThreads = 1 ∧
      (create num_bits hint num_cores).locks = 1 ∧
      ∀ idx, ((create num_bits hint num_cores).parse idx).1 = 0) ∧
    (∀ blob sz bits C, createFromCopy blob sz bits hint num_cores = some C →
      C.numThreads = 1 ∧ C.locks = 1 ∧ ∀ idx, (C.parse idx).1 = 0) ∧
    (∀ s, Reachable s → s.numThreads = 1 ∧ s.locks = 1 ∧ ∀ idx, (s.parse idx).1 = 0) := by
  have hexit : num_cores ≤ growThreads 64 1 num_cores :=
    growThreads_exits num_cores (by omega) 64 0 1 rfl (by omega) (by omega)
  have hlock : ∀ s : GenericBitmap, Inited s →
      s.numThreads = 1 ∧ s.locks = 1 ∧ ∀ idx, (s.parse idx).1 = 0 := by
    intro s h
    refine ⟨h.threads, h.nlocks, ?_⟩
    intro idx
    rw [parse_eq s h.threads]
  refine ⟨⟨hexit, ?_⟩, ?_, ?_, ?_⟩
  · intro fuel hf
    exact growThreads_stable num_cores 64 1 hexit fuel hf
  · intro num_bits
    exact hlock _ (inited_create _ _ _)
  · intro blob sz bits C hC
    exact hlock _ (inited_createFromCopy _ _ _ _ _ _ hC)
  · intro s hs
    exact hlock s hs.inited

/-- Witness of C15: the hint 3, which is not a power of two, on a machine with 12 cores. -/
theorem single_global_lock_witness :
    (12 ≤ growThreads 64 1 12 ∧
      ∀ fuel, 64 ≤ fuel → growThreads fuel 1 12 = growThreads 64 1 12) ∧
    (∀ num_bits,
      (create num_bits 3 12).numThreads = 1 ∧
      (create num_bits 3 12).locks = 1 ∧
      ∀ idx, ((create num_bits 3 12).parse idx).1 = 0) ∧
    (∀ blob sz bits C, createFromCopy blob sz bits 3 12 = some C →
      C.numThreads = 1 ∧ C.locks = 1 ∧ ∀ idx, (C.parse idx).1 = 0) ∧
    (∀ s, Reachable s → s.numThreads = 1 ∧ s.locks = 1 ∧ ∀ idx, (s.parse idx).1 = 0) :=
  single_global_lock 3 12 (by decide)

/-! ## The lookup table -/

theorem newByte_naive_nat : ∀ p < 256, ∀ o < 8, ∀ v : Bool,
    (newByte (Byte.trunc p) o v).val = naiveSetBit p o v ∧
      p &&& compl64 (Byte.trunc (0x80 >>> o)) < 256 := by
  decide!

theorem setInternal_eq (s : GenericBitmap) (h : Inited s) (offset byte_idx : Nat)
    (ho : offset < 8) (prev : Byte) (hprev : s.myBitmap[byte_idx]? = some prev) (v : Bool) :
    s.setInternal offset byte_idx (boolToByte v) =
      some (bitAt prev offset,
        { s with myBitmap := s.myBitmap.set byte_idx (newByte prev offset v) }) := by
  unfold setInternal
  rw [h.masks, initMasks8_getElem? _ ho, h.table, hprev]
  simp only []
  rw [initCalcTable_lookup prev _ ho v]
  simp only [bitAt, trunc_mask_val _ ho]

/-- C16 (lookup table equals the branching definition): for every byte `prev`, every offset
in 0..7 and every `v`, the entry `calcTable[prev][offset][v]` that `init` fills exists, its
bit under the mask `0x80 >> offset` equals `v`, its seven other bits equal those of `prev`,
and it is the byte of the branching definition `if v then prev OR mask else prev AND NOT
mask`; the truncation of `prev & (~mask)` to eight bits loses nothing; and `setInternal` on
a bitmap state whose byte `byte_idx` is `prev` stores that byte. -/
theorem calcTable_is_naive (prev : Byte) (offset : Nat) (hoff : offset < 8) (v : Bool) :
    ∃ e : Byte,
      ((initCalcTable initMasks8)[prev.val]?).bind
        (fun row => (row[offset]?).bind fun cell => cell[(boolToByte v).val]?) = some e ∧
      bitAt e offset = v ∧
      (∀ o, o < 8 → o ≠ offset → bitAt e o = bitAt prev o) ∧
      e.val = naiveSetBit prev.val offset v ∧
      (Byte.trunc (prev.val &&& compl64 (Byte.trunc (0x80 >>> offset)))).val
        = prev.val &&& compl64 (Byte.trunc (0x80 >>> offset)) ∧
      ∀ s, Reachable s → ∀ byte_idx, s.myBitmap[byte_idx]? = some prev →
        ∃ r t, s.setInternal offset byte_idx (boolToByte v) = some (r, t) ∧
          (t.myBitmap[byte_idx]?).map Fin.val = some (naiveSetBit prev.val offset v) := by
  have hn := newByte_naive_nat prev.val prev.isLt offset hoff v
  rw [trunc_val] at hn
  refine ⟨newByte prev offset v, initCalcTable_lookup prev offset hoff v, ?_, ?_, hn.1, ?_, ?_⟩
  · rw [bitAt_newByte prev _ _ hoff hoff]
    simp
  · intro o ho hne
    rw [bitAt_newByte prev _ _ hoff ho]
    simp [hne]
  · exact Nat.mod_eq_of_lt hn.2
  · intro s hs byte_idx hprev
    refine ⟨_, _, setInternal_eq s hs.inited offset byte_idx hoff prev hprev v, ?_⟩
    simp only [List.getElem?_set_self (getElem?_lt hprev), Option.map_some', hn.1]

/-- Witness of C16: the entry `calcTable[0xA5][3][1]`. -/
theorem calcTable_is_naive_witness :
    ∃ e : Byte,
      ((initCalcTable initMasks8)[(0xA5 : Byte).val]?).bind
        (fun row => (row[3]?).bind fun cell => cell[(boolToByte true).val]?) = some e ∧
      bitAt e 3 = true ∧
      (∀ o, o < 8 → o ≠ 3 → bitAt e o = bitAt 0xA5 o) ∧
      e.val = naiveSetBit (0xA5 : Byte).val 3 true ∧
      (Byte.trunc ((0xA5 : Byte).val &&& compl64 (Byte.trunc (0x80 >>> 3)))).val
        = (0xA5 : Byte).val &&& compl64 (Byte.trunc (0x80 >>> 3)) ∧
      ∀ s, Reachable s → ∀ byte_idx, s.myBitmap[byte_idx]? = some 0xA5 →
        ∃ r t, s.setInternal 3 byte_idx (boolToByte true) = some (r, t) ∧
          (t.myBitmap[byte_idx]?).map Fin.val = some (naiveSetBit (0xA5 : Byte).val 3 true) :=
  calcTable_is_naive 0xA5 3 (by decide) true

/-! ## Trailing pad bits -/

theorem inited_with_buffer (s : GenericBitmap) (h : Inited s) (buf : List Byte)
    (hlen : buf.length = s.myBitmap.length) : Inited { s with myBitmap := buf } :=
  ⟨h.masks, h.table, h.threads, h.nlocks, hlen.trans h.alloc⟩

/-- One write below `n`, on a buffer that holds byte `n / 8`, is defined and keeps every
bit of byte `n / 8` at an offset from `n mod 8` on. -/
theorem set_pad (n k : Nat) (hk : n % 8 ≤ k) (hk8 : k < 8) (s : GenericBitmap) (h : Inited s)
    (hlen : n / 8 < s.myBitmap.length) (idx : Nat) (hidx : idx < n) (v : Bool) :
    ∃ p t, s.set idx v = some (p, t) ∧ Inited t ∧ t.myBitmap.length = s.myBitmap.length ∧
      (t.myBitmap[n / 8]?).map (fun c => bitAt c k)
        = (s.myBitmap[n / 8]?).map (fun c => bitAt c k) := by
  have ho : idx % 8 < 8 := Nat.mod_lt _ (by decide)
  have hb : idx / 8 < s.myBitmap.length := by omega
  obtain ⟨prev, hprev, hset⟩ := set_defined s h idx v hb
  refine ⟨_, _, hset, inited_set s h idx v _ _ hset, by simp, ?_⟩
  by_cases hd : idx / 8 = n / 8
  · have hne : k ≠ idx % 8 := by omega
    rw [← hd]
    simp only [List.getElem?_set_self hb, hprev, Option.map_some',
      bitAt_newByte prev _ _ ho hk8, if_neg hne]
  · simp only [List.getElem?_set_ne hd]

theorem setAll_pad (n k : Nat) (hk : n % 8 ≤ k) (hk8 : k < 8) (ws : List (Nat × Bool)) :
    ∀ s : GenericBitmap, Inited s → n / 8 < s.myBitmap.length → (∀ w ∈ ws, w.1 < n) →
      ∃ t, setAll s ws = some t ∧
        (t.myBitmap[n / 8]?).map (fun c => bitAt c k)
          = (s.myBitmap[n / 8]?).map (fun c => bitAt c k) := by
  induction ws with
  | nil =>
    intro s _ _ _
    exact ⟨s, rfl, rfl⟩
  | cons w ws ih =>
    intro s h hlen hws
    obtain ⟨p, u, hset, hu, hulen, hupad⟩ :=
      set_pad n k hk hk8 s h hlen w.1 (hws w (List.mem_cons_self _ _)) w.2
    obtain ⟨t, ht, htpad⟩ :=
      ih u hu (by rw [hulen]; exact hlen) (fun x hx => hws x (List.mem_cons_of_mem _ hx))
    refine ⟨t, ?_, htpad.trans hupad⟩
    simp only [setAll, hset, Option.some_bind]
    exact ht

/-- Pad bits on a bitmap state with bit count `n` whose buffer holds byte `n / 8`, for an
offset `k` with `n mod 8 ≤ k < 8`: `get(idx)` for `idx < n` does not change when byte `n / 8`
is replaced by a byte that agrees with it at the offsets below `n mod 8`; `set(idx, v)` for
`idx < n` is defined and leaves the bit of byte `n / 8` at offset `k` as it was, and so does
every sequence of such calls. -/
theorem pad_bits_untouched (s : GenericBitmap) (hs : Reachable s)
    (hbyte : s.size / 8 < s.getPtr.length) (k : Nat) (hk : s.size % 8 ≤ k) (hk8 : k < 8) :
    (∀ idx, idx < s.size → ∀ last c : Byte, s.myBitmap[s.size / 8]? = some last →
      (∀ o, o < s.size % 8 → bitAt c o = bitAt last o) →
      ({ s with myBitmap := s.myBitmap.set (s.size / 8) c } : GenericBitmap).get idx
        = s.get idx) ∧
    (∀ idx v, idx < s.size → ∃ p t, s.set idx v = some (p, t) ∧
      (t.myBitmap[s.size / 8]?).map (fun c => bitAt c k)
        = (s.myBitmap[s.size / 8]?).map (fun c => bitAt c k)) ∧
    (∀ ws, (∀ w ∈ ws, w.1 < s.size) → ∃ t, setAll s ws = some t ∧
      (t.myBitmap[s.size / 8]?).map (fun c => bitAt c k)
        = (s.myBitmap[s.size / 8]?).map (fun c => bitAt c k)) := by
  have h := hs.inited
  simp only [getPtr, size] at hbyte hk ⊢
  refine ⟨?_, ?_, ?_⟩
  · intro idx hidx last c hlast hagree
    rw [get_eq _ (inited_with_buffer s h _ (List.length_set _ _ _)), get_eq s h]
    by_cases hd : idx / 8 = s.numBits / 8
    · have ho : idx % 8 < s.numBits % 8 := by omega
      simp only [hd, List.getElem?_set_self hbyte, hlast, Option.map_some', hagree _ ho]
    · simp only [List.getElem?_set_ne (Ne.symm hd)]
  · intro idx v hidx
    obtain ⟨p, t, hset, _, _, hpad⟩ := set_pad s.numBits k hk hk8 s h hbyte idx hidx v
    exact ⟨p, t, hset, hpad⟩
  · intro ws hws
    exact setAll_pad s.numBits k hk hk8 ws s h hbyte hws

/-- Pad bits of a fresh bitmap whose size computation does not wrap: for `n` not a multiple
of 8 the buffer of `create(n)` has `n / 8 + 1` bytes, its last byte is byte `n / 8`, and the
bits of that byte at the offsets `k` with `n mod 8 ≤ k < 8` are still 0 after every sequence
of `set` calls with indices below `n`. -/
theorem pad_bits_create (num_bits num_threads num_cores : Nat) (hn : num_bits + 7 < U64)
    (hmod : num_bits % 8 ≠ 0) (k : Nat) (hk : num_bits % 8 ≤ k) (hk8 : k < 8)
    (ws : List (Nat × Bool)) (hws : ∀ w ∈ ws, w.1 < num_bits) :
    (create num_bits num_threads num_cores).getPtr.length = num_bits / 8 + 1 ∧
      ∃ t, setAll (create num_bits num_threads num_cores) ws = some t ∧
        (t.myBitmap[num_bits / 8]?).map (fun c => bitAt c k) = some false := by
  have hlen : (create num_bits num_threads num_cores).myBitmap.length = (num_bits + 7) / 8 := by
    simp [create, init, Nat.mod_eq_of_lt hn]
  have hlt : num_bits / 8 < (create num_bits num_threads num_cores).myBitmap.length := by
    rw [hlen]
    omega
  refine ⟨by simp only [getPtr]; rw [hlen]; omega, ?_⟩
  obtain ⟨t, ht, hpad⟩ := setAll_pad num_bits k hk hk8 ws _
    (inited_create num_bits num_threads num_cores) hlt hws
  refine ⟨t, ht, ?_⟩
  rw [hpad]
  have hzero : (create num_bits num_threads num_cores).myBitmap[num_bits / 8] = 0 :=
    (create_all_zero num_bits num_threads num_cores).1 _ (List.getElem_mem hlt)
  rw [List.getElem?_eq_getElem hlt, hzero]
  simp only [Option.map_some', bitAt_zero]

/-- C17 fails at the 64-bit value `n = 2 ^ 64 - 1`, which is not a multiple of 8
(`n mod 8 = 7`): the buffer of `create(n)` is empty (`numBits + 7` wraps), so that there is
no last byte holding the pad bit, and `get` and `set` at the valid index `2 ^ 64 - 2` address
a byte the buffer does not hold; no sequence of such `set` calls leaves a buffer whose pad
bit could still be 0. -/
theorem pad_bits_wrap :
    (create (2 ^ 64 - 1) 0 4).size % 8 = 7 ∧
      2 ^ 64 - 2 < (create (2 ^ 64 - 1) 0 4).size ∧
      (create (2 ^ 64 - 1) 0 4).getPtr = [] ∧
      (create (2 ^ 64 - 1) 0 4).myBitmap[(create (2 ^ 64 - 1) 0 4).size / 8]? = none ∧
      (create (2 ^ 64 - 1) 0 4).get (2 ^ 64 - 2) = none ∧
      (create (2 ^ 64 - 1) 0 4).set (2 ^ 64 - 2) true = none ∧
      setAll (create (2 ^ 64 - 1) 0 4) [(2 ^ 64 - 2, true)] = none := by
  decide

/-! ## Commuting writes and undo -/

/-- C18, as stated, fails: on the bitmap copied from a 1-byte blob with 16 bits, `set(0, true)`
called first returns `false`, but called after `set(8, true)`, which addresses byte 1 outside
the buffer, it has no value to return; neither order leaves a buffer. -/
theorem commute_short_buffer :
    (createFromCopy [0] 1 16 0 4).map size = some 16 ∧
    (createFromCopy [0] 1 16 0 4).bind (fun s => (s.set 0 true).map Prod.fst) = some false ∧
    (createFromCopy [0] 1 16 0 4).bind
      (fun s => (s.set 8 true).bind fun r => (r.2.set 0 true).map Prod.fst) = none ∧
    (createFromCopy [0] 1 16 0 4).bind
      (fun s => (s.set 0 true).bind fun r => (r.2.set 8 true).map Prod.snd) = none := by
  decide!

/-- C18 (amended, writes to distinct bits commute): on a bitmap state whose buffer holds the
bytes `i / 8` and `j / 8`, for `i ≠ j` both below `size()` (in the same byte or in different
bytes) and all values `a`, `b`, the calls `set(i, a)` then `set(j, b)` and the calls
`set(j, b)` then `set(i, a)` are all defined, leave the same state (the same buffer), and
each call returns the same previous value in both orders. -/
theorem set_commute (s : GenericBitmap) (hs : Reachable s) (i j : Nat) (a b : Bool)
    (_hi : i < s.size) (_hj : j < s.size) (hne : i ≠ j)
    (hbi : i / 8 < s.myBitmap.length) (hbj : j / 8 < s.myBitmap.length) :
    ∃ p q u w t, s.set i a = some (p, u) ∧ u.set j b = some (q, t) ∧
      s.set j b = some (q, w) ∧ w.set i a = some (p, t) := by
  have h := hs.inited
  have hoi : i % 8 < 8 := Nat.mod_lt _ (by decide)
  have hoj : j % 8 < 8 := Nat.mod_lt _ (by decide)
  obtain ⟨pi, hpi, hseti⟩ := set_defined s h i a hbi
  obtain ⟨pj, hpj, hsetj⟩ := set_defined s h j b hbj
  have hu := inited_set s h i a _ _ hseti
  have hw := inited_set s h j b _ _ hsetj
  by_cases hd : i / 8 = j / 8
  · have hpp : pj = pi := by
      rw [hd, hpj] at hpi
      exact Option.some.inj hpi
    have hoo : i % 8 ≠ j % 8 := div_mod_ne hne hd
    subst hpp
    refine ⟨_, _, _, _,
      { s with myBitmap := s.myBitmap.set (j / 8) (newByte (newByte pj (i % 8) a) (j % 8) b) },
      hseti, ?_, hsetj, ?_⟩
    · rw [set_eq _ hu]
      simp only [hd, List.getElem?_set_self hbj, Option.map_some', List.set_set,
        bitAt_newByte pj _ _ hoi hoj, if_neg (Ne.symm hoo)]
    · rw [set_eq _ hw]
      simp only [hd, List.getElem?_set_self hbj, Option.map_some', List.set_set,
        bitAt_newByte pj _ _ hoj hoi, if_neg hoo,
        newByte_comm pj _ _ hoj hoi (Ne.symm hoo) b a]
  · refine ⟨_, _, _, _,
      { s with myBitmap :=
          (s.myBitmap.set (i / 8) (newByte pi (i % 8) a)).set (j / 8) (newByte pj (j % 8) b) },
      hseti, ?_, hsetj, ?_⟩
    · rw [set_eq _ hu]
      simp only [List.getElem?_set_ne hd, hpj, Option.map_some']
    · rw [set_eq _ hw]
      simp only [List.getElem?_set_ne (Ne.symm hd), hpi, Option.map_some',
        List.set_comm _ _ _ hd]

/-- Witness of C18 (amended): bits 3 and 5 of the same byte of a fresh 64-bit bitmap. -/
theorem set_commute_witness :
    ∃ p q u w t, (create 64 0 4).set 3 true = some (p, u) ∧ u.set 5 true = some (q, t) ∧
      (create 64 0 4).set 5 true = some (q, w) ∧ w.set 3 true = some (p, t) :=
  set_commute (create 64 0 4) (Reachable.create 64 0 4 (by decide)) 3 5 true true
    (by decide) (by decide) (by decide) (by decide) (by decide)

/-- C19 (undo by the returned value): on every bitmap state, for `idx < size()` and every
`v`, if `set(idx, v)` returns `p` and leaves the state `t`, then `set(idx, p)` on `t` is
defined, returns `v` and restores exactly the state before the first call (the same
buffer); the first call is defined whenever the buffer holds byte `idx / 8`; and `set(idx, w)`
on a state where `get(idx)` returns `w` returns `w` and leaves the state unchanged. -/
theorem set_undo (s : GenericBitmap) (hs : Reachable s) (idx : Nat) (v : Bool)
    (_hidx : idx < s.size) :
    (∀ p t, s.set idx v = some (p, t) → t.set idx p = some (v, s)) ∧
    (idx / 8 < s.myBitmap.length → ∃ p t, s.set idx v = some (p, t)) ∧
    (∀ w, s.get idx = some w → s.set idx w = some (w, s)) := by
  have h := hs.inited
  have ho : idx % 8 < 8 := Nat.mod_lt _ (by decide)
  refine ⟨?_, ?_, ?_⟩
  · intro p t hset
    have ht := inited_set s h idx v p t hset
    obtain ⟨prev, hprev, hp, rfl⟩ := set_some s h idx v p t hset
    have hb := getElem?_lt hprev
    rw [set_eq _ ht]
    simp only [List.getElem?_set_self hb, Option.map_some', List.set_set, hp,
      newByte_undo prev _ ho v, bitAt_newByte prev _ _ ho ho v, if_true,
      list_set_self _ _ _ hprev]
  · intro hb
    obtain ⟨prev, _, hset⟩ := set_defined s h idx v hb
    exact ⟨_, _, hset⟩
  · intro w hw
    rw [get_eq s h] at hw
    cases hprev : s.myBitmap[idx / 8]? with
    | none => rw [hprev] at hw; cases hw
    | some prev =>
      rw [hprev] at hw
      have hw2 : bitAt prev (idx % 8) = w := Option.some.inj hw
      rw [set_eq s h, hprev]
      simp only [Option.map_some', hw2]
      rw [← hw2, newByte_same prev _ ho, list_set_self _ _ _ hprev]

/-- Witness of C19: bit 10 of the bitmap loaded from the blob `FF FF`, written `false`. -/
theorem set_undo_witness :
    (∀ p t, loadedFF.set 10 false = some (p, t) → t.set 10 p = some (false, loadedFF)) ∧
    (10 / 8 < loadedFF.myBitmap.length → ∃ p t, loadedFF.set 10 false = some (p, t)) ∧
    (∀ w, loadedFF.get 10 = some w → loadedFF.set 10 w = some (w, loadedFF)) :=
  set_undo loadedFF
    (Reachable.createFromCopy [0xFF, 0xFF] 2 16 0 4 loadedFF (by decide) (by decide) rfl)
    10 false (by decide)

end GenericBitmapModel
